import Mathlib

/-!
# Verification of `dcmdat2niix.py` (XA30_workaround)

A shallow embedding, in Lean 4, of the pure logic of
`src/xa30_workaround/scripts/dcmdat2niix.py`, together with theorems checking
the repository's natural-language specification against it.

Modelling conventions:
* numpy float arrays are modelled as `List ℚ` (the properties checked here
  are order/arithmetic properties that do not depend on rounding);
* Python strings are Lean `String`s; `in` (substring test) and `str.replace`
  are re-implemented character-by-character below with Python's semantics
  (`replace` rewrites every non-overlapping occurrence, left to right);
* the metadata JSON document is a structure holding the fields the script
  touches plus an opaque remainder; Python's `dict.copy()` is shallow, so the
  `ImageTypeText` list is modelled as a separate, shared value threaded
  through the per-echo loop (mutating it in a copy mutates it everywhere);
* fallible steps return `Except String`.
-/

namespace Dcmdat2niix

/-! ## Echo-time extraction filter

Source, `main`, lines 68-75: after parsing the eight lines following the
`alTE` tag into the array `TEs` (already divided by `1e6`),

```
diff = TEs[1:] - TEs[0:-1]
TEs = np.insert(TEs[1:][diff > 0], 0, TEs[0])
```

i.e. the first element is always kept and a later element is kept exactly
when it strictly exceeds its immediate predecessor in the *raw* array.
-/

/-- Helper `filterTail prev l` keeps those elements of `l` that strictly exceed
their immediate predecessor in the raw sequence `prev :: l`.  This is
`TEs[1:][diff > 0]` from the source, with `prev` the element before `l`. -/
def filterTail : ℚ → List ℚ → List ℚ
  | _, [] => []
  | prev, y :: ys => if prev < y then y :: filterTail y ys else filterTail y ys

/-- The dedup filter applied by `main` to the parsed echo-time array
(`np.insert(TEs[1:][diff > 0], 0, TEs[0])`): keep the first element, and
keep each later element iff it strictly exceeds its raw predecessor. -/
def filterTEs : List ℚ → List ℚ
  | [] => []
  | x :: xs => x :: filterTail x xs

/-- Parsing scales each value from microseconds to seconds (`/ 1e6`,
line 70) before the dedup filter runs. -/
def extractTEs (raw : List ℚ) : List ℚ :=
  filterTEs (raw.map (fun v => v / 1000000))

/-- Specification-style description of which raw values are kept: each tail
element paired with its raw predecessor, kept iff predecessor < element. -/
def keptTailSpec (x : ℚ) (xs : List ℚ) : List ℚ :=
  ((xs.zip (x :: xs)).filter (fun p => p.2 < p.1)).map Prod.fst

theorem filterTail_eq_keptTailSpec (x : ℚ) (xs : List ℚ) :
    filterTail x xs = keptTailSpec x xs := by
  induction xs generalizing x with
  | nil => rfl
  | cons y ys ih =>
    simp only [filterTail, keptTailSpec, List.zip_cons_cons, List.filter_cons]
    by_cases h : x < y
    · simp [h, ih y, keptTailSpec]
    · simp [h, ih y, keptTailSpec]

theorem mem_filterTail_gt {p : ℚ} {l : List ℚ}
    (hc : List.Chain' (· ≤ ·) (p :: l)) :
    ∀ y ∈ filterTail p l, p < y := by
  induction l generalizing p with
  | nil => intro y hy; simp [filterTail] at hy
  | cons b bs ih =>
    have hpb : p ≤ b := (List.chain'_cons.mp hc).1
    have hcb : List.Chain' (· ≤ ·) (b :: bs) := (List.chain'_cons.mp hc).2
    intro y hy
    simp only [filterTail] at hy
    by_cases h : p < b
    · simp only [if_pos h, List.mem_cons] at hy
      rcases hy with rfl | hy
      · exact h
      · exact lt_of_le_of_lt hpb (ih hcb y hy)
    · simp only [if_neg h] at hy
      exact lt_of_le_of_lt hpb (ih hcb y hy)

theorem chain'_lt_filterTail {p : ℚ} {l : List ℚ}
    (hc : List.Chain' (· ≤ ·) (p :: l)) :
    List.Chain' (· < ·) (filterTail p l) := by
  induction l generalizing p with
  | nil => simp [filterTail]
  | cons b bs ih =>
    have hcb : List.Chain' (· ≤ ·) (b :: bs) := (List.chain'_cons.mp hc).2
    simp only [filterTail]
    by_cases h : p < b
    · simp only [if_pos h]
      refine List.chain'_cons'.mpr ⟨?_, ih hcb⟩
      intro y hy
      exact mem_filterTail_gt hcb y (List.mem_of_mem_head? hy)
    · simp only [if_neg h]
      exact ih hcb

theorem chain'_lt_filterTEs {l : List ℚ}
    (hc : List.Chain' (· ≤ ·) l) :
    List.Chain' (· < ·) (filterTEs l) := by
  cases l with
  | nil => simp [filterTEs]
  | cons x xs =>
    simp only [filterTEs]
    refine List.chain'_cons'.mpr ⟨?_, chain'_lt_filterTail hc⟩
    intro y hy
    exact mem_filterTail_gt hc y (List.mem_of_mem_head? hy)

/-- Claim C1: Echo-time filtering follows exact pairwise-diff semantics over the
raw parsed list: on the microsecond-scaled raw sequence `[10, 10, 20, 15, 30]`
the filter keeps `[10, 20, 30]` (scaled to seconds), and in general the first
parsed value is always kept while each later value is kept iff it strictly
exceeds its immediate predecessor in the raw list (not the last kept value). -/
theorem echo_time_filter_pairwise_diff :
    extractTEs [10, 10, 20, 15, 30]
      = [10 / 1000000, 20 / 1000000, 30 / 1000000] ∧
    ∀ (x : ℚ) (xs : List ℚ), filterTEs (x :: xs) = x :: keptTailSpec x xs := by
  constructor
  · norm_num [extractTEs, filterTEs, filterTail]
  · intro x xs
    simp [filterTEs, filterTail_eq_keptTailSpec]

/-- Claim C2, counterexample: On the raw parsed sequence `[10, 5, 7]` (µs) the
filter retains `[10/1e6, 7/1e6]`, which is not strictly increasing: the claim
that every retained sequence is strictly increasing is false. -/
theorem retained_not_strictly_increasing_cex :
    ¬ List.Chain' (· < ·) (extractTEs [10, 5, 7]) := by
  norm_num [extractTEs, filterTEs, filterTail, List.chain'_cons]

/-- Claim C2, amended: Each retained element other than the first strictly
exceeds its immediate predecessor in the raw list, so whenever the raw parsed
sequence is nondecreasing the retained echo-time list is strictly increasing;
for a raw sequence with a decrease, the retained list need not be strictly
increasing. -/
theorem retained_strictly_increasing_of_monotone_raw (raw : List ℚ)
    (h : List.Chain' (· ≤ ·) raw) :
    List.Chain' (· < ·) (extractTEs raw) := by
  refine chain'_lt_filterTEs ?_
  rw [List.chain'_map]
  refine h.imp ?_
  intro a b hab
  exact div_le_div_of_nonneg_right hab (by norm_num) |>.trans_eq rfl

/-- Witness for `retained_strictly_increasing_of_monotone_raw` at the
nondecreasing raw sequence `[10, 10, 20, 20, 30]`. -/
theorem retained_strictly_increasing_of_monotone_raw_witness :
    List.Chain' (· < ·) (extractTEs [10, 10, 20, 20, 30]) :=
  retained_strictly_increasing_of_monotone_raw [10, 10, 20, 20, 30] (by norm_num)

/-! ## Argument relay

Source, `main`, lines 35-40:

```
if "-v" not in other_args:
    idx = len(other_args) - 1
    other_args.insert(idx, "1")
    other_args.insert(idx, "-v")
else:
    raise ValueError("Turn off verbose output (-v) as this conflicts with this script.")
```

The `ValueError` is raised before `dicom2nifti(*other_args)` (line 51) runs,
so an `Except.error` result means the wrapped converter is never invoked.
-/

/-- Python `list.insert(i, x)`: a negative index counts from the end and is
clamped at `0`; an index past the end is clamped at `len`. -/
def pyInsert (l : List String) (i : Int) (x : String) : List String :=
  let n : Int := l.length
  let j : Int := if i < 0 then max (i + n) 0 else min i n
  l.take j.toNat ++ x :: l.drop j.toNat

/-- The argument relay of `main`: reject an existing `-v`, otherwise insert
`"-v"`, `"1"` at index `len - 1` (before the final argument). -/
def relayArgs (otherArgs : List String) : Except String (List String) :=
  if "-v" ∈ otherArgs then
    Except.error "Turn off verbose output (-v) as this conflicts with this script."
  else
    let idx : Int := (otherArgs.length : Int) - 1
    Except.ok (pyInsert (pyInsert otherArgs idx "1") idx "-v")

theorem pyInsert_coe_nat (l : List String) (k : Nat) (hk : k ≤ l.length)
    (x : String) :
    pyInsert l (k : Int) x = l.take k ++ x :: l.drop k := by
  unfold pyInsert
  have h0 : ¬((k : Int) < 0) := by omega
  have hmin : min (k : Int) (l.length : Int) = (k : Int) := by omega
  simp [h0, hmin]

theorem list_drop_pred {α : Type} (l : List α) (h : l ≠ []) :
    l.drop (l.length - 1) = [l.getLast h] := by
  have h2 : l.dropLast.length = l.length - 1 := List.length_dropLast l
  calc l.drop (l.length - 1)
      = (l.dropLast ++ [l.getLast h]).drop l.dropLast.length := by
        rw [h2, List.dropLast_append_getLast h]
    _ = [l.getLast h] := List.drop_left _ _

/-- Claim C4: For every nonempty argument list without `"-v"`, the relay
succeeds and returns exactly the original list with the verbose flag and its
level (`"-v"`, `"1"`) inserted immediately before the final argument; the
relative order of all other arguments is unchanged (they appear verbatim as
`l.dropLast` then `l.getLast`), and the result holds exactly one `"-v"`. -/
theorem relay_injects_verbose (l : List String) (hne : l ≠ [])
    (hv : "-v" ∉ l) :
    relayArgs l = Except.ok (l.dropLast ++ ["-v", "1", l.getLast hne]) ∧
    (l.dropLast ++ ["-v", "1", l.getLast hne]).count "-v" = 1 := by
  have hlen : 1 ≤ l.length := List.length_pos.mpr hne
  have hidx : ((l.length : Int) - 1) = ((l.length - 1 : Nat) : Int) := by omega
  have htake : l.take (l.length - 1) = l.dropLast := (List.dropLast_eq_take l).symm
  have hdlen : l.dropLast.length = l.length - 1 := List.length_dropLast l
  constructor
  · unfold relayArgs
    rw [if_neg hv]
    show Except.ok
        (pyInsert (pyInsert l ((l.length : Int) - 1) "1")
          ((l.length : Int) - 1) "-v")
      = Except.ok (l.dropLast ++ ["-v", "1", l.getLast hne])
    have h1 : pyInsert l ((l.length : Int) - 1) "1"
        = l.dropLast ++ "1" :: [l.getLast hne] := by
      rw [hidx, pyInsert_coe_nat l (l.length - 1) (by omega) "1",
        htake, list_drop_pred l hne]
    rw [h1]
    have h2len : l.length - 1 ≤ (l.dropLast ++ "1" :: [l.getLast hne]).length := by
      simp [List.length_append, hdlen]
    rw [hidx, pyInsert_coe_nat _ _ h2len "-v", ← hdlen, List.take_left,
      List.drop_left]
  · have hv1 : "-v" ∉ l.dropLast := fun hmem => hv (List.dropLast_subset l hmem)
    have hv2 : l.getLast hne ≠ "-v" := fun heq => hv (heq ▸ List.getLast_mem hne)
    rw [List.count_append]
    rw [List.count_eq_zero.mpr hv1]
    simp [List.count_cons, hv2]

/-- Witness for `relay_injects_verbose` on the concrete argument list
`["-o", "out", "dicomdir"]`. -/
theorem relay_injects_verbose_witness :
    relayArgs ["-o", "out", "dicomdir"]
      = Except.ok ["-o", "out", "-v", "1", "dicomdir"] ∧
    (["-o", "out", "-v", "1", "dicomdir"] : List String).count "-v" = 1 := by
  have h := relay_injects_verbose ["-o", "out", "dicomdir"] (by decide)
    (by decide)
  simpa using h

/-- Claim C5: For every argument list already containing `"-v"`, the relay
fails with the usage error before the wrapped converter is invoked (in the
script the `ValueError` at line 40 is raised before `dicom2nifti` runs on
line 51); the flag is rejected, never merged. -/
theorem relay_rejects_verbose (l : List String) (hv : "-v" ∈ l) :
    relayArgs l
      = Except.error
        "Turn off verbose output (-v) as this conflicts with this script." := by
  unfold relayArgs
  rw [if_pos hv]

/-- Witness for `relay_rejects_verbose` on the concrete argument list
`["-v", "dicomdir"]`. -/
theorem relay_rejects_verbose_witness :
    relayArgs ["-v", "dicomdir"]
      = Except.error
        "Turn off verbose output (-v) as this conflicts with this script." :=
  relay_rejects_verbose ["-v", "dicomdir"] (by decide)

/-! ## Min-max normalization and the sanity check

Source, `normalize`, lines 14-16:

```
def normalize(data):
    return (data - np.min(data)) / (np.max(data) - np.min(data))
```

and `main`, lines 118-128: the first-echo/first-frame slice of the decoded
array and the first frame of the official image are each normalized and
compared with `np.all(np.isclose(...))` (`rtol = 1e-5`, `atol = 1e-8`); a
mismatch raises a fatal `ValueError`.  Arrays are modelled as `List ℚ` in a
fixed traversal order; elementwise operations act positionally.
-/

/-- Model of `np.min` over a nonempty array (`0` on the empty list, where the source
would raise). -/
def listMin : List ℚ → ℚ
  | [] => 0
  | x :: xs => xs.foldl min x

/-- Model of `np.max` over a nonempty array (`0` on the empty list, where the source
would raise). -/
def listMax : List ℚ → ℚ
  | [] => 0
  | x :: xs => xs.foldl max x

/-- Function `normalize` from the source: `(data - min) / (max - min)`, elementwise.
In `ℚ` a zero denominator makes every entry `0` (where numpy yields NaN). -/
def normalize (l : List ℚ) : List ℚ :=
  l.map (fun v => (v - listMin l) / (listMax l - listMin l))

/-- Model of `np.isclose` with its default tolerances: `|a - b| ≤ atol + rtol * |b|`,
`rtol = 1e-5`, `atol = 1e-8`. -/
def isclose (a b : ℚ) : Bool :=
  |a - b| ≤ 1 / 100000000 + 1 / 100000 * |b|

/-- The first-echo/first-frame sanity check of `main`, lines 119-128:
normalize both slices independently and require elementwise closeness. -/
def sanityCheck (datSlice official : List ℚ) : Bool :=
  ((normalize datSlice).zip (normalize official)).all fun p => isclose p.1 p.2

theorem foldl_min_le_acc (l : List ℚ) (acc : ℚ) : l.foldl min acc ≤ acc := by
  induction l generalizing acc with
  | nil => exact le_refl acc
  | cons y ys ih => exact le_trans (ih (min acc y)) (min_le_left acc y)

theorem foldl_min_le_mem (l : List ℚ) (acc : ℚ) :
    ∀ x ∈ l, l.foldl min acc ≤ x := by
  induction l generalizing acc with
  | nil => intro x hx; cases hx
  | cons y ys ih =>
    intro x hx
    rcases List.mem_cons.mp hx with rfl | hx
    · exact le_trans (foldl_min_le_acc ys (min acc x)) (min_le_right acc x)
    · exact ih (min acc y) x hx

theorem foldl_min_mem_or (l : List ℚ) (acc : ℚ) :
    l.foldl min acc = acc ∨ l.foldl min acc ∈ l := by
  induction l generalizing acc with
  | nil => exact Or.inl rfl
  | cons y ys ih =>
    rcases ih (min acc y) with h | h
    · rw [List.foldl_cons, h]
      rcases min_cases acc y with ⟨hm, _⟩ | ⟨hm, _⟩
      · exact Or.inl hm
      · exact Or.inr (by rw [hm]; exact List.mem_cons_self y ys)
    · exact Or.inr (List.mem_cons_of_mem y h)

theorem foldl_max_acc_le (l : List ℚ) (acc : ℚ) : acc ≤ l.foldl max acc := by
  induction l generalizing acc with
  | nil => exact le_refl acc
  | cons y ys ih => exact le_trans (le_max_left acc y) (ih (max acc y))

theorem foldl_max_mem_le (l : List ℚ) (acc : ℚ) :
    ∀ x ∈ l, x ≤ l.foldl max acc := by
  induction l generalizing acc with
  | nil => intro x hx; cases hx
  | cons y ys ih =>
    intro x hx
    rcases List.mem_cons.mp hx with rfl | hx
    · exact le_trans (le_max_right acc x) (foldl_max_acc_le ys (max acc x))
    · exact ih (max acc y) x hx

theorem foldl_max_mem_or (l : List ℚ) (acc : ℚ) :
    l.foldl max acc = acc ∨ l.foldl max acc ∈ l := by
  induction l generalizing acc with
  | nil => exact Or.inl rfl
  | cons y ys ih =>
    rcases ih (max acc y) with h | h
    · rw [List.foldl_cons, h]
      rcases max_cases acc y with ⟨hm, _⟩ | ⟨hm, _⟩
      · exact Or.inl hm
      · exact Or.inr (by rw [hm]; exact List.mem_cons_self y ys)
    · exact Or.inr (List.mem_cons_of_mem y h)

theorem listMin_le {l : List ℚ} : ∀ x ∈ l, listMin l ≤ x := by
  cases l with
  | nil => intro x hx; cases hx
  | cons y ys =>
    intro x hx
    rcases List.mem_cons.mp hx with rfl | hx
    · exact foldl_min_le_acc ys x
    · exact foldl_min_le_mem ys y x hx

theorem le_listMax {l : List ℚ} : ∀ x ∈ l, x ≤ listMax l := by
  cases l with
  | nil => intro x hx; cases hx
  | cons y ys =>
    intro x hx
    rcases List.mem_cons.mp hx with rfl | hx
    · exact foldl_max_acc_le ys x
    · exact foldl_max_mem_le ys y x hx

theorem listMin_mem {l : List ℚ} (h : l ≠ []) : listMin l ∈ l := by
  cases l with
  | nil => exact absurd rfl h
  | cons y ys =>
    rcases foldl_min_mem_or ys y with heq | hmem
    · show ys.foldl min y ∈ y :: ys
      rw [heq]; exact List.mem_cons_self y ys
    · exact List.mem_cons_of_mem y hmem

theorem listMax_mem {l : List ℚ} (h : l ≠ []) : listMax l ∈ l := by
  cases l with
  | nil => exact absurd rfl h
  | cons y ys =>
    rcases foldl_max_mem_or ys y with heq | hmem
    · show ys.foldl max y ∈ y :: ys
      rw [heq]; exact List.mem_cons_self y ys
    · exact List.mem_cons_of_mem y hmem

theorem affine_monotone {a b : ℚ} (ha : 0 ≤ a) :
    Monotone (fun v : ℚ => a * v + b) :=
  fun _ _ hxy => add_le_add_right (mul_le_mul_of_nonneg_left hxy ha) b

theorem foldl_min_map {f : ℚ → ℚ} (hf : Monotone f) (l : List ℚ) (acc : ℚ) :
    (l.map f).foldl min (f acc) = f (l.foldl min acc) := by
  induction l generalizing acc with
  | nil => rfl
  | cons y ys ih =>
    simp only [List.map_cons, List.foldl_cons, ← hf.map_min, ih]

theorem foldl_max_map {f : ℚ → ℚ} (hf : Monotone f) (l : List ℚ) (acc : ℚ) :
    (l.map f).foldl max (f acc) = f (l.foldl max acc) := by
  induction l generalizing acc with
  | nil => rfl
  | cons y ys ih =>
    simp only [List.map_cons, List.foldl_cons, ← hf.map_max, ih]

theorem listMin_map_affine {a b : ℚ} (ha : 0 ≤ a) (l : List ℚ) (h : l ≠ []) :
    listMin (l.map (fun v => a * v + b)) = a * listMin l + b := by
  cases l with
  | nil => exact absurd rfl h
  | cons y ys =>
    show (ys.map _).foldl min (a * y + b) = _
    exact foldl_min_map (affine_monotone ha) ys y

theorem listMax_map_affine {a b : ℚ} (ha : 0 ≤ a) (l : List ℚ) (h : l ≠ []) :
    listMax (l.map (fun v => a * v + b)) = a * listMax l + b := by
  cases l with
  | nil => exact absurd rfl h
  | cons y ys =>
    show (ys.map _).foldl max (a * y + b) = _
    exact foldl_max_map (affine_monotone ha) ys y

theorem normalize_map_affine {a b : ℚ} (ha : 0 < a) (l : List ℚ) (h : l ≠ []) :
    normalize (l.map (fun v => a * v + b)) = normalize l := by
  unfold normalize
  rw [listMin_map_affine ha.le l h, listMax_map_affine ha.le l h, List.map_map]
  refine List.map_congr_left fun v _ => ?_
  show (a * v + b - (a * listMin l + b)) / (a * listMax l + b - (a * listMin l + b))
      = (v - listMin l) / (listMax l - listMin l)
  have hnum : a * v + b - (a * listMin l + b) = a * (v - listMin l) := by ring
  have hden : a * listMax l + b - (a * listMin l + b)
      = a * (listMax l - listMin l) := by ring
  rw [hnum, hden, mul_div_mul_left _ _ (ne_of_gt ha)]

theorem isclose_self (v : ℚ) : isclose v v = true := by
  simp only [isclose, sub_self, abs_zero, decide_eq_true_eq]
  positivity

theorem zip_self_all_isclose (l : List ℚ) :
    ((l.zip l).all fun p => isclose p.1 p.2) = true := by
  induction l with
  | nil => rfl
  | cons x xs ih => simp [List.zip_cons_cons, isclose_self, ih]

/-- Claim C6: The sanity check is invariant under uniform positive affine
rescaling: if the official slice equals `α·(decoded slice) + β` pointwise with
`α > 0` (and the slices are non-constant, so normalization is well defined),
both normalizations coincide and the check passes; and whenever some position
of the two normalized slices is not within `np.isclose` tolerance, the check
fails (a fatal `ValueError` in the script). -/
theorem sanity_check_affine_invariance :
    (∀ (a : List ℚ) (c d : ℚ), 0 < c → listMin a < listMax a →
      sanityCheck a (a.map (fun v => c * v + d)) = true) ∧
    (∀ (a b : List ℚ) (i : ℕ) (va vb : ℚ),
      (normalize a).get? i = some va → (normalize b).get? i = some vb →
      isclose va vb = false → sanityCheck a b = false) := by
  constructor
  · intro a c d hc hlt
    have hne : a ≠ [] := by
      intro h
      rw [h] at hlt
      exact absurd hlt (by norm_num [listMin, listMax])
    unfold sanityCheck
    rw [normalize_map_affine hc a hne]
    exact zip_self_all_isclose (normalize a)
  · intro a b i va vb ha hb hfalse
    have hmem : (va, vb) ∈ (normalize a).zip (normalize b) :=
      List.get?_mem ((List.get?_zip_eq_some _ _ _ _).mpr ⟨ha, hb⟩)
    unfold sanityCheck
    cases hall : ((normalize a).zip (normalize b)).all fun p => isclose p.1 p.2
    · rfl
    · have := List.all_eq_true.mp hall _ hmem
      rw [hfalse] at this
      cases this

/-- Witness for `sanity_check_affine_invariance`: `[3, 5] = 2·[0, 1] + 3`
passes the check; `[1, 0]` against `[0, 1]` fails it. -/
theorem sanity_check_affine_invariance_witness :
    sanityCheck [0, 1] [3, 5] = true ∧ sanityCheck [0, 1] [1, 0] = false := by
  constructor
  · have h := sanity_check_affine_invariance.1 [0, 1] 2 3 (by norm_num)
      (by norm_num [listMin, listMax])
    have hmap : ([0, 1] : List ℚ).map (fun v => 2 * v + 3) = [3, 5] := by
      norm_num
    rw [hmap] at h
    exact h
  · exact sanity_check_affine_invariance.2 [0, 1] [1, 0] 0 0 1
      (by norm_num [normalize, listMin, listMax]) (by norm_num [normalize, listMin, listMax])
      (by simp only [isclose, decide_eq_false_iff_not]; norm_num)

/-- Claim C10: `normalize` is well defined only for non-constant input: for a
nonempty array, the denominator `max - min` is zero exactly when the array
holds no two distinct values (in numpy the division then produces NaN, not a
value in `[0,1]`), so the sanity check implicitly requires both compared
slices to contain at least two distinct values. -/
theorem normalize_denominator_zero_iff (l : List ℚ) (hne : l ≠ []) :
    listMax l - listMin l = 0 ↔ ∀ x ∈ l, ∀ y ∈ l, x = y := by
  constructor
  · intro h x hx y hy
    have hmaxmin : listMax l = listMin l := sub_eq_zero.mp h
    have hx1 : x ≤ listMax l := le_listMax x hx
    have hx2 : listMin l ≤ x := listMin_le x hx
    have hy1 : y ≤ listMax l := le_listMax y hy
    have hy2 : listMin l ≤ y := listMin_le y hy
    rw [hmaxmin] at hx1 hy1
    have hxm : x = listMin l := le_antisymm hx1 hx2
    have hym : y = listMin l := le_antisymm hy1 hy2
    rw [hxm, hym]
  · intro h
    have hmm := h (listMax l) (listMax_mem hne) (listMin l) (listMin_mem hne)
    rw [hmm, sub_self]

/-- Witness for `normalize_denominator_zero_iff` at the constant array
`[5, 5]`. -/
theorem normalize_denominator_zero_iff_witness :
    listMax [5, 5] - listMin [5, 5] = 0 :=
  (normalize_denominator_zero_iff [5, 5] (by decide)).mpr (by decide)

/-! ## Python string operations

The per-echo loop relies on Python's `in` (substring containment) and
`str.replace` (rewrite every non-overlapping occurrence, scanning left to
right).  Both are re-implemented here over `List Char`.
-/

/-- Predicate `matchesAt pat l`: the character list `l` starts with `pat`. -/
def matchesAt : List Char → List Char → Bool
  | [], _ => true
  | _ :: _, [] => false
  | a :: as, b :: bs => a == b && matchesAt as bs

/-- Python `needle in hay` on character lists: `needle` occurs somewhere. -/
def containsChars (needle : List Char) : List Char → Bool
  | [] => needle.isEmpty
  | c :: cs => matchesAt needle (c :: cs) || containsChars needle cs

/-- Python `needle in hay` on strings. -/
def strContains (hay needle : String) : Bool :=
  containsChars needle.data hay.data

/-- Python `str.replace` on character lists (`old` nonempty, split as
`o :: os`): replace every non-overlapping occurrence of `o :: os` with
`new`, scanning left to right.  The `fuel` argument only makes the recursion
structural; every call site passes `fuel ≥ length`, which is preserved
because a successful match consumes at least one character. -/
def replaceChars (o : Char) (os new : List Char) : Nat → List Char → List Char
  | _, [] => []
  | 0, l => l
  | fuel + 1, c :: cs =>
    if matchesAt (o :: os) (c :: cs) then
      new ++ replaceChars o os new fuel (cs.drop os.length)
    else c :: replaceChars o os new fuel cs

/-- Python `s.replace(old, new)` on strings (`old` empty returns `s`
unchanged; the script only replaces nonempty literals). -/
def pyReplace (s old new : String) : String :=
  match old.data with
  | [] => s
  | o :: os => String.mk (replaceChars o os new.data s.data.length s.data)

/-! ## Metadata document and the per-echo materialization loop

Source, `main`, lines 130-181.  The JSON sidecar document is modelled by
`Metadata`: the three fields the script touches (`EchoTime`,
`ConversionSoftware`, `ImageTypeText`) plus an opaque remainder `rest` for
every other key.  `imageTypeText = none` models a document without the
`ImageTypeText` key (in which case `metadata_copy["ImageTypeText"]` raises
an uncaught `KeyError`: only `IndexError` is caught at line 173).

Python's `metadata.copy()` (line 164) is a *shallow* dict copy: rebinding
`"EchoTime"` or `"ConversionSoftware"` in the copy leaves the original dict
alone, but `metadata_copy["ImageTypeText"][te_idx] = ...` (line 172)
mutates the one list object that the original and all copies share.  The
loop therefore threads that shared list explicitly (`sharedITT` below), and
the state of the original document after an iteration has its
`imageTypeText` equal to the current shared list.

Paths: the keys of the conversion map are extension-free output bases (the
files live beside them as `base + suffix` / `base + ".json"`), so
`Path(...).with_suffix(x)` is modelled as appending `x`, and the basename
checks `... in nifti.name` are modelled on the same string.  The written
image `nib.Nifti1Image(data_array[..., i, :], nifti_img.affine,
nifti_img.header)` is modelled by `NiftiOut`, whose `affine`/`header` come
from the official image (parameters of `ConvParams`) and whose pixel data
is the decoded array's echo-`i` slice, `ConvParams.slice i`.
-/

/-- The JSON metadata document (fields touched by the script, plus an
opaque remainder standing for all other keys). -/
structure Metadata where
  echoTime : ℚ
  conversionSoftware : String
  imageTypeText : Option (List String)
  rest : List (String × String)
  deriving DecidableEq

/-- A written NIfTI image: pixel data plus the affine and header passed to
`nib.Nifti1Image`. -/
structure NiftiOut (A H D : Type) where
  data : D
  affine : A
  header : H
  deriving DecidableEq

/-- Per-image conversion context: the image file suffix (`.nii` or
`.nii.gz`), the official image's affine and header, and the decoded
array's echo slices (`slice i` is `data_array[..., i, :]`). -/
structure ConvParams (A H D : Type) where
  suffix : String
  affine : A
  header : H
  slice : Nat → D

/-- State of the per-echo loop: the (possibly renamed) output base path,
the echo marker prefix (`"e"`, or `"echo"` after the synonym branch), the
first echo's image/json paths, the shared `ImageTypeText` list, and the
file-system effects so far (renames, the in-place phase rewrite of echo 0,
and the `(echo index, output base, image, metadata)` pairs written for
later echoes). -/
structure LoopState (A H D : Type) where
  nifti : String
  echoPrefix : String
  imgPath : String
  jsonPath : String
  sharedITT : Option (List String)
  moves : List (String × String)
  phRewrite : Option (String × NiftiOut A H D)
  outputs : List (Nat × String × NiftiOut A H D × Metadata)
  deriving DecidableEq

variable {A H D : Type}

/-- Loop state on entry (line 133): base path as produced by the converter,
echo prefix `"e"`, no effects yet; the shared `ImageTypeText` list is the
one loaded from the first echo's JSON sidecar. -/
def initState (nifti : String) (suffix : String) (md : Metadata) :
    LoopState A H D :=
  { nifti := nifti, echoPrefix := "e", imgPath := nifti ++ suffix,
    jsonPath := nifti ++ ".json", sharedITT := md.imageTypeText,
    moves := [], phRewrite := none, outputs := [] }

/-- Lines 156-159: when the (current) filename contains `"_ph"`, resave the
image at the current image path with the decoded first-echo slice and the
official image's affine and header. -/
def phaseRewrite (P : ConvParams A H D) (s : LoopState A H D) :
    LoopState A H D :=
  if strContains s.nifti "_ph" then
    { s with phRewrite := some (s.imgPath, ⟨P.slice 0, P.affine, P.header⟩) }
  else s

/-- Lines 136-160, the `i == 0` iteration: ensure an `"e1"` marker (the
`"echo1"` synonym branch switches the prefix and `continue`s, skipping even
the phase rewrite), renaming both files if a marker is inserted, then
rewrite the phase image in place when the filename contains `"_ph"`. -/
def echoZeroStep (P : ConvParams A H D) (s : LoopState A H D) :
    LoopState A H D :=
  if strContains s.nifti "e1" then phaseRewrite P s
  else if strContains s.nifti "echo1" then { s with echoPrefix := "echo" }
  else
    let nifti' := if strContains s.nifti "_ph" then
        pyReplace s.nifti "_ph" "_e1_ph"
      else s.nifti ++ "_e1"
    let img' := nifti' ++ P.suffix
    let json' := nifti' ++ ".json"
    phaseRewrite P
      { s with
        nifti := nifti'
        imgPath := img'
        jsonPath := json'
        moves := s.moves ++ [(s.imgPath, img'), (s.jsonPath, json')] }

/-- Lines 169-174: relabel the first `ImageTypeText` entry containing
`"TE"` to `TE<i+1>` on the shared list.  A document without the key raises
an uncaught `KeyError` (only `IndexError` is caught); a document whose list
has no qualifying entry is left alone (`pass`). -/
def relabelITT (itt : Option (List String)) (i : Nat) :
    Except String (Option (List String)) :=
  match itt with
  | none => Except.error "KeyError: ImageTypeText"
  | some l =>
    match l.findIdx? (fun e => strContains e "TE") with
    | none => Except.ok (some l)
    | some j => Except.ok (some (l.set j ("TE" ++ toString (i + 1))))

/-- Lines 161-181, one `i >= 1` iteration: substitute the echo numeral in
the output base, shallow-copy the metadata (fresh top-level fields, shared
`ImageTypeText` list), overwrite `EchoTime` and `ConversionSoftware`,
relabel the shared list, and write the image/metadata pair. -/
def echoLaterStep (P : ConvParams A H D) (md : Metadata)
    (s : LoopState A H D) (i : Nat) (t : ℚ) :
    Except String (LoopState A H D) :=
  let outputBase :=
    pyReplace s.nifti (s.echoPrefix ++ "1") (s.echoPrefix ++ toString (i + 1))
  match relabelITT s.sharedITT i with
  | Except.error e => Except.error e
  | Except.ok itt' =>
    Except.ok
      { s with
        sharedITT := itt'
        outputs := s.outputs ++
          [(i, outputBase, ⟨P.slice i, P.affine, P.header⟩,
            { echoTime := t
              conversionSoftware := "dcmdat2niix"
              imageTypeText := itt'
              rest := md.rest })] }

/-- One iteration of `for i, t in enumerate(TEs)`. -/
def echoStep (P : ConvParams A H D) (md : Metadata) (s : LoopState A H D) :
    Nat × ℚ → Except String (LoopState A H D)
  | (0, _) => Except.ok (echoZeroStep P s)
  | (i, t) => echoLaterStep P md s i t

/-- Fold of `echoStep` over the remaining `(index, echo time)` pairs; an
uncaught exception aborts the loop. -/
def runEchoLoopAux (P : ConvParams A H D) (md : Metadata) :
    LoopState A H D → List (Nat × ℚ) → Except String (LoopState A H D)
  | s, [] => Except.ok s
  | s, p :: ps =>
    match echoStep P md s p with
    | Except.error e => Except.error e
    | Except.ok s' => runEchoLoopAux P md s' ps

/-- The whole per-echo loop of `main` (lines 130-181) for one image. -/
def runEchoLoop (P : ConvParams A H D) (md : Metadata) (nifti : String)
    (TEs : List ℚ) : Except String (LoopState A H D) :=
  runEchoLoopAux P md (initState nifti P.suffix md) TEs.enum

/-- The metadata handling of one `i >= 1` iteration in isolation, with the
aliasing of Python's shallow `dict.copy()` made explicit: returns the copy
written to disk and the original document as observable afterwards (the
`ImageTypeText` list is one shared object, so relabeling it in the copy is
visible through the original; the top-level rebinding of `EchoTime` and
`ConversionSoftware` is not). -/
def materializeMetadata (orig : Metadata) (i : Nat) (t : ℚ) :
    Except String (Metadata × Metadata) :=
  match relabelITT orig.imageTypeText i with
  | Except.error e => Except.error e
  | Except.ok itt' =>
    Except.ok
      ({ echoTime := t
         conversionSoftware := "dcmdat2niix"
         imageTypeText := itt'
         rest := orig.rest },
       { orig with imageTypeText := itt' })

/-- A concrete conversion context for the closed example theorems: plain
tokens for the official image's affine and header, and echo slice `i`
represented by the index `i` itself. -/
def exampleParams : ConvParams String String Nat :=
  { suffix := ".nii", affine := "affine0", header := "header0",
    slice := fun i => i }

/-- A concrete metadata document with a qualifying `ImageTypeText` entry. -/
def exampleMeta : Metadata :=
  { echoTime := 1, conversionSoftware := "dcm2niix",
    imageTypeText := some ["ORIG", "TE1"], rest := [("Modality", "MR")] }

/-- A concrete metadata document without the `ImageTypeText` key. -/
def exampleMetaNoKey : Metadata :=
  { echoTime := 1, conversionSoftware := "dcm2niix",
    imageTypeText := none, rest := [("Modality", "MR")] }

/-- A concrete metadata document whose `ImageTypeText` has no entry
containing `"TE"`. -/
def exampleMetaNoTE : Metadata :=
  { echoTime := 1, conversionSoftware := "dcm2niix",
    imageTypeText := some ["ORIG"], rest := [("Modality", "MR")] }

/-- Claim C3, counterexample: `metadata.copy()` is a shallow copy: after
materializing echo index 1 on a document whose `ImageTypeText` is
`["ORIG", "TE1"]`, the original document observable through the shared list
has `ImageTypeText = ["ORIG", "TE2"]`, so it is *not* unchanged in every
field. -/
theorem metadata_deep_copy_cex :
    materializeMetadata (Metadata.mk 1 "dcm2niix" (some ["ORIG", "TE1"]) []) 1 3
      = Except.ok
          (Metadata.mk 3 "dcmdat2niix" (some ["ORIG", "TE2"]) [],
           Metadata.mk 1 "dcm2niix" (some ["ORIG", "TE2"]) []) ∧
    Metadata.mk 1 "dcm2niix" (some ["ORIG", "TE2"]) []
      ≠ Metadata.mk 1 "dcm2niix" (some ["ORIG", "TE1"]) [] := by
  constructor
  · rfl
  · decide

/-- Claim C3, amended: The per-echo copy is shallow, not deep: after
materializing any later echo, the original document's top-level fields
(`EchoTime`, `ConversionSoftware`, and all untouched keys) are unchanged,
but its `ImageTypeText` sequence is the same shared object as the written
copy's, so the relabeling is visible through the original whenever a
qualifying entry exists. -/
theorem metadata_copy_shallow (orig : Metadata) (i : Nat) (t : ℚ)
    (cp after : Metadata)
    (h : materializeMetadata orig i t = Except.ok (cp, after)) :
    after.echoTime = orig.echoTime ∧
    after.conversionSoftware = orig.conversionSoftware ∧
    after.rest = orig.rest ∧
    after.imageTypeText = cp.imageTypeText := by
  unfold materializeMetadata at h
  cases hrel : relabelITT orig.imageTypeText i with
  | error e => rw [hrel] at h; cases h
  | ok itt' =>
    rw [hrel] at h
    simp only [Except.ok.injEq, Prod.mk.injEq] at h
    obtain ⟨hcp, hafter⟩ := h
    subst hcp hafter
    exact ⟨rfl, rfl, rfl, rfl⟩

/-- Witness for `metadata_copy_shallow` at a concrete document. -/
theorem metadata_copy_shallow_witness :
    (Metadata.mk 1 "dcm2niix" (some ["ORIG", "TE2"]) []).echoTime
      = (Metadata.mk 1 "dcm2niix" (some ["ORIG", "TE1"]) []).echoTime ∧
    (Metadata.mk 1 "dcm2niix" (some ["ORIG", "TE2"]) []).conversionSoftware
      = (Metadata.mk 1 "dcm2niix" (some ["ORIG", "TE1"]) []).conversionSoftware ∧
    (Metadata.mk 1 "dcm2niix" (some ["ORIG", "TE2"]) []).rest
      = (Metadata.mk 1 "dcm2niix" (some ["ORIG", "TE1"]) []).rest ∧
    (Metadata.mk 1 "dcm2niix" (some ["ORIG", "TE2"]) []).imageTypeText
      = (Metadata.mk 3 "dcmdat2niix" (some ["ORIG", "TE2"]) []).imageTypeText :=
  metadata_copy_shallow (Metadata.mk 1 "dcm2niix" (some ["ORIG", "TE1"]) []) 1 3
    (Metadata.mk 3 "dcmdat2niix" (some ["ORIG", "TE2"]) [])
    (Metadata.mk 1 "dcm2niix" (some ["ORIG", "TE2"]) []) (by rfl)

/-- Claim C9, counterexample: A metadata document without the
`ImageTypeText` key is *not* skipped silently: `except IndexError` does not
catch the `KeyError` raised by `metadata_copy["ImageTypeText"]`, so the
whole per-echo loop aborts instead of completing that echo's output pair. -/
theorem relabel_missing_key_cex :
    runEchoLoop exampleParams exampleMetaNoKey "sub_e1" [1, 3]
      = Except.error "KeyError: ImageTypeText" := by rfl

theorem findIdx?_eq_none_of_forall {p : String → Bool} {l : List String}
    (h : ∀ e ∈ l, p e = false) : l.findIdx? p = none := by
  rw [List.findIdx?_eq_none_iff]
  intro x hx
  simp [h x hx]

/-- Claim C9, amended: The relabeling is skipped silently — and the echo's
image/metadata pair is still produced — exactly when the `ImageTypeText`
list exists but has no entry containing `"TE"`; a document without the key
aborts with a `KeyError` instead (see the counterexample). -/
theorem relabel_skip_without_entry (P : ConvParams A H D) (md : Metadata)
    (s : LoopState A H D) (i : Nat) (t : ℚ) (l : List String)
    (hitt : s.sharedITT = some l)
    (hno : ∀ e ∈ l, strContains e "TE" = false) :
    echoLaterStep P md s i t
      = Except.ok
          { s with
            outputs := s.outputs ++
              [(i, pyReplace s.nifti (s.echoPrefix ++ "1")
                  (s.echoPrefix ++ toString (i + 1)),
                ⟨P.slice i, P.affine, P.header⟩,
                Metadata.mk t "dcmdat2niix" (some l) md.rest)] } := by
  cases s with
  | mk n ep ip jp sh mv ph outs =>
    dsimp only at hitt
    subst hitt
    unfold echoLaterStep relabelITT
    dsimp only
    rw [findIdx?_eq_none_of_forall hno]

/-- Witness for `relabel_skip_without_entry` on a concrete state whose
shared `ImageTypeText` is `["ORIG"]`. -/
theorem relabel_skip_without_entry_witness :
    echoLaterStep exampleParams exampleMetaNoTE
        (initState "sub_e1" ".nii" exampleMetaNoTE) 1 3
      = Except.ok
          { initState "sub_e1" ".nii" exampleMetaNoTE with
            outputs :=
              (initState "sub_e1" ".nii" exampleMetaNoTE
                  : LoopState String String Nat).outputs ++
              [(1, pyReplace
                  (initState "sub_e1" ".nii" exampleMetaNoTE
                      : LoopState String String Nat).nifti
                  ((initState "sub_e1" ".nii" exampleMetaNoTE
                      : LoopState String String Nat).echoPrefix ++ "1")
                  ((initState "sub_e1" ".nii" exampleMetaNoTE
                      : LoopState String String Nat).echoPrefix ++ toString 2),
                ⟨exampleParams.slice 1, exampleParams.affine,
                  exampleParams.header⟩,
                Metadata.mk 3 "dcmdat2niix" (some ["ORIG"])
                  exampleMetaNoTE.rest)] } :=
  relabel_skip_without_entry exampleParams exampleMetaNoTE
    (initState "sub_e1" ".nii" exampleMetaNoTE) 1 3 ["ORIG"] (by rfl)
    (by decide)

theorem matchesAt_append {n xs : List Char} (ys : List Char)
    (h : matchesAt n xs = true) : matchesAt n (xs ++ ys) = true := by
  induction n generalizing xs with
  | nil => rfl
  | cons a as ih =>
    cases xs with
    | nil => cases h
    | cons b bs =>
      rw [List.cons_append]
      simp only [matchesAt, Bool.and_eq_true] at h ⊢
      exact ⟨h.1, ih h.2⟩

theorem containsChars_nil_needle (l : List Char) :
    containsChars [] l = true := by
  cases l with
  | nil => rfl
  | cons c cs => simp [containsChars, matchesAt]

theorem containsChars_append_left {n xs : List Char} (ys : List Char)
    (h : containsChars n xs = true) : containsChars n (xs ++ ys) = true := by
  induction xs with
  | nil =>
    cases n with
    | nil => exact containsChars_nil_needle ys
    | cons a as => cases h
  | cons c cs ih =>
    rw [List.cons_append]
    simp only [containsChars, Bool.or_eq_true] at h ⊢
    rcases h with h | h
    · exact Or.inl (matchesAt_append ys h)
    · exact Or.inr (ih h)

theorem containsChars_cons {n cs : List Char} (c : Char)
    (h : containsChars n cs = true) : containsChars n (c :: cs) = true := by
  simp [containsChars, h]

theorem containsChars_replaceChars {o : Char} {os new sub : List Char}
    (hsub : containsChars sub new = true) :
    ∀ (fuel : Nat) (l : List Char), l.length ≤ fuel →
      containsChars (o :: os) l = true →
      containsChars sub (replaceChars o os new fuel l) = true := by
  intro fuel
  induction fuel with
  | zero =>
    intro l hl hc
    cases l with
    | nil => cases hc
    | cons c cs => simp at hl
  | succ fuel ih =>
    intro l hl hc
    cases l with
    | nil => cases hc
    | cons c cs =>
      by_cases hm : matchesAt (o :: os) (c :: cs) = true
      · rw [replaceChars, if_pos hm]
        exact containsChars_append_left _ hsub
      · rw [replaceChars, if_neg hm]
        have hc' : containsChars (o :: os) cs = true := by
          simp only [containsChars, Bool.or_eq_true] at hc
          rcases hc with h | h
          · exact absurd h hm
          · exact h
        have hlen : cs.length ≤ fuel := by
          simp only [List.length_cons] at hl
          omega
        exact containsChars_cons c (ih cs hlen hc')

/-- Replacing `"_ph"` by `"_e1_ph"` keeps the `"_ph"` marker present. -/
theorem strContains_pyReplace_ph (s : String)
    (h : strContains s "_ph" = true) :
    strContains (pyReplace s "_ph" "_e1_ph") "_ph" = true := by
  show containsChars "_ph".data
      (replaceChars '_' ['p', 'h'] "_e1_ph".data s.data.length s.data) = true
  exact containsChars_replaceChars (by decide) s.data.length s.data
    (le_refl _) h

/-- Claim C8, counterexample: A first-echo filename carrying the synonym
marker `"echo1"` and the phase marker `"_ph"` is *not* rewritten: the
synonym branch `continue`s before the phase rewrite, so no pixel data is
written for echo 0 even though the filename indicates a phase image. -/
theorem phase_rewrite_synonym_cex :
    strContains "sub_echo1_ph" "_ph" = true ∧
    (echoZeroStep exampleParams
        (initState "sub_echo1_ph" exampleParams.suffix exampleMeta)).phRewrite
      = none := by
  constructor
  · rfl
  · rfl

/-- Claim C8, amended: For echo index 0, whenever the output filename
contains the phase marker `"_ph"`, the image is rewritten in place with the
decoded array's first-echo slice and the official image's affine and
header — for every filename shape *except* the `"echo1"` synonym branch
(no `"e1"` but `"echo1"` present), which skips the whole first-echo
iteration including the rewrite. -/
theorem phase_rewrite_amended (P : ConvParams A H D) (md : Metadata)
    (name : String)
    (hph : strContains name "_ph" = true)
    (hcase : strContains name "e1" = true ∨ strContains name "echo1" = false) :
    ∃ p, (echoZeroStep P (initState name P.suffix md)).phRewrite
        = some (p, ⟨P.slice 0, P.affine, P.header⟩) := by
  cases he1 : strContains name "e1" with
  | true =>
    refine ⟨name ++ P.suffix, ?_⟩
    simp [echoZeroStep, initState, phaseRewrite, he1, hph]
  | false =>
    have hech : strContains name "echo1" = false := by
      rcases hcase with h | h
      · rw [he1] at h; cases h
      · exact h
    refine ⟨pyReplace name "_ph" "_e1_ph" ++ P.suffix, ?_⟩
    have hph' := strContains_pyReplace_ph name hph
    simp [echoZeroStep, initState, phaseRewrite, he1, hech, hph, hph']

/-- Witness for `phase_rewrite_amended` on the phase filename
`"sub_e1_ph"`, which already carries the explicit first-echo marker. -/
theorem phase_rewrite_amended_witness :
    ∃ p, (echoZeroStep exampleParams
        (initState "sub_e1_ph" exampleParams.suffix exampleMeta)).phRewrite
      = some (p, ⟨exampleParams.slice 0, exampleParams.affine,
          exampleParams.header⟩) :=
  phase_rewrite_amended exampleParams exampleMeta "sub_e1_ph" (by rfl)
    (Or.inl (by rfl))

theorem phaseRewrite_outputs (P : ConvParams A H D) (s : LoopState A H D) :
    (phaseRewrite P s).outputs = s.outputs := by
  unfold phaseRewrite
  split <;> rfl

theorem echoZeroStep_outputs (P : ConvParams A H D) (s : LoopState A H D) :
    (echoZeroStep P s).outputs = s.outputs := by
  unfold echoZeroStep
  split
  · rw [phaseRewrite_outputs]
  · split
    · rfl
    · rw [phaseRewrite_outputs]

theorem echoLaterStep_spec (P : ConvParams A H D) (md : Metadata)
    (s s' : LoopState A H D) (i : Nat) (t : ℚ)
    (h : echoLaterStep P md s i t = Except.ok s') :
    s'.nifti = s.nifti ∧ s'.echoPrefix = s.echoPrefix ∧
    ∃ itt',
      s'.outputs = s.outputs ++
        [(i, pyReplace s.nifti (s.echoPrefix ++ "1")
            (s.echoPrefix ++ toString (i + 1)),
          ⟨P.slice i, P.affine, P.header⟩,
          Metadata.mk t "dcmdat2niix" itt' md.rest)] := by
  unfold echoLaterStep at h
  dsimp only at h
  cases hrel : relabelITT s.sharedITT i with
  | error e => rw [hrel] at h; cases h
  | ok itt' =>
    rw [hrel] at h
    simp only [Except.ok.injEq] at h
    subst h
    exact ⟨rfl, rfl, itt', rfl⟩

theorem echoStep_outputs_grow (P : ConvParams A H D) (md : Metadata)
    (s s' : LoopState A H D) (p : Nat × ℚ)
    (h : echoStep P md s p = Except.ok s') :
    ∀ x ∈ s.outputs, x ∈ s'.outputs := by
  obtain ⟨i, t⟩ := p
  cases i with
  | zero =>
    intro x hx
    have hz : echoZeroStep P s = s' := by
      simpa only [echoStep, Except.ok.injEq] using h
    rw [← hz, echoZeroStep_outputs]
    exact hx
  | succ k =>
    intro x hx
    have hl : echoLaterStep P md s (k + 1) t = Except.ok s' := h
    obtain ⟨_, _, itt', houts⟩ := echoLaterStep_spec P md s s' (k + 1) t hl
    rw [houts]
    exact List.mem_append_left _ hx

theorem runEchoLoopAux_outputs_mono (P : ConvParams A H D) (md : Metadata) :
    ∀ (ps : List (Nat × ℚ)) (s fin : LoopState A H D),
      runEchoLoopAux P md s ps = Except.ok fin →
      ∀ x ∈ s.outputs, x ∈ fin.outputs := by
  intro ps
  induction ps with
  | nil =>
    intro s fin h x hx
    unfold runEchoLoopAux at h
    simp only [Except.ok.injEq] at h
    exact h ▸ hx
  | cons p ps ih =>
    intro s fin h x hx
    unfold runEchoLoopAux at h
    cases hstep : echoStep P md s p with
    | error e => rw [hstep] at h; cases h
    | ok s1 =>
      rw [hstep] at h
      exact ih s1 fin h x (echoStep_outputs_grow P md s s1 p hstep x hx)

theorem runEchoLoopAux_later_spec (P : ConvParams A H D) (md : Metadata) :
    ∀ (ps : List (Nat × ℚ)) (s fin : LoopState A H D),
      runEchoLoopAux P md s ps = Except.ok fin →
      (∀ p ∈ ps, 1 ≤ p.1) →
      fin.nifti = s.nifti ∧ fin.echoPrefix = s.echoPrefix ∧
      ∀ i t, (i, t) ∈ ps →
        ∃ itt',
          (i, pyReplace s.nifti (s.echoPrefix ++ "1")
              (s.echoPrefix ++ toString (i + 1)),
            (⟨P.slice i, P.affine, P.header⟩ : NiftiOut A H D),
            Metadata.mk t "dcmdat2niix" itt' md.rest) ∈ fin.outputs := by
  intro ps
  induction ps with
  | nil =>
    intro s fin h _
    unfold runEchoLoopAux at h
    simp only [Except.ok.injEq] at h
    subst h
    exact ⟨rfl, rfl, fun i t hmem => absurd hmem (List.not_mem_nil _)⟩
  | cons p ps ih =>
    intro s fin h hge
    obtain ⟨i0, t0⟩ := p
    have hi0 : 1 ≤ i0 := hge (i0, t0) (List.mem_cons_self _ _)
    cases i0 with
    | zero => omega
    | succ k =>
      unfold runEchoLoopAux at h
      cases hstep : echoStep P md s (k + 1, t0) with
      | error e => rw [hstep] at h; cases h
      | ok s1 =>
        rw [hstep] at h
        have hlater : echoLaterStep P md s (k + 1) t0 = Except.ok s1 := hstep
        obtain ⟨hn, hp, itt0, houts⟩ :=
          echoLaterStep_spec P md s s1 (k + 1) t0 hlater
        obtain ⟨hfn, hfp, hmem⟩ :=
          ih s1 fin h (fun q hq => hge q (List.mem_cons_of_mem _ hq))
        refine ⟨by rw [hfn, hn], by rw [hfp, hp], ?_⟩
        intro i t hmem'
        rcases List.mem_cons.mp hmem' with heq | hmem''
        · obtain ⟨hi, ht⟩ := Prod.mk.injEq .. ▸ heq
          subst hi
          subst ht
          refine ⟨itt0, ?_⟩
          refine runEchoLoopAux_outputs_mono P md ps s1 fin h _ ?_
          rw [houts]
          exact List.mem_append_right _ (List.mem_singleton_self _)
        · obtain ⟨itt1, hm1⟩ := hmem i t hmem''
          rw [hn, hp] at hm1
          exact ⟨itt1, hm1⟩

theorem mem_enumFrom_of_get {α : Type} :
    ∀ (l : List α) (n k : Nat) (hk : k < l.length),
      (n + k, l.get ⟨k, hk⟩) ∈ l.enumFrom n := by
  intro l
  induction l with
  | nil => intro n k hk; simp at hk
  | cons x xs ih =>
    intro n k hk
    cases k with
    | zero => simp [List.enumFrom]
    | succ k' =>
      have hk' : k' < xs.length := by simpa using hk
      have hmem := ih (n + 1) k' hk'
      have harith : n + (k' + 1) = n + 1 + k' := by omega
      rw [show ((x :: xs).get ⟨k' + 1, hk⟩) = xs.get ⟨k', hk'⟩ from rfl, harith]
      exact List.mem_cons_of_mem _ hmem

theorem enumFrom_fst_le {α : Type} :
    ∀ (l : List α) (n : Nat) (p : Nat × α), p ∈ l.enumFrom n → n ≤ p.1 := by
  intro l
  induction l with
  | nil => intro n p h; cases h
  | cons x xs ih =>
    intro n p h
    rcases List.mem_cons.mp h with rfl | h
    · exact le_refl n
    · exact le_trans (Nat.le_succ n) (ih (n + 1) p h)

/-- Claim C7: With at least two extracted echo times, every echo index
`i ≥ 1` produces an image/metadata pair whose output base is the (post
echo-0) filename with the echo marker's numeral substituted to `i + 1`,
whose metadata has `EchoTime` equal to the `(i+1)`-th extracted echo time
(in seconds) and `ConversionSoftware` overwritten to `"dcmdat2niix"`, and
whose image carries the official image's affine and header with the decoded
array's echo-`i` slice as pixel data. -/
theorem later_echo_materialization (P : ConvParams A H D) (md : Metadata)
    (nifti : String) (TEs : List ℚ) (fin : LoopState A H D)
    (hrun : runEchoLoop P md nifti TEs = Except.ok fin)
    (i : Nat) (hi1 : 1 ≤ i) (hi2 : i < TEs.length) :
    ∃ itt',
      (i, pyReplace fin.nifti (fin.echoPrefix ++ "1")
          (fin.echoPrefix ++ toString (i + 1)),
        (⟨P.slice i, P.affine, P.header⟩ : NiftiOut A H D),
        Metadata.mk (TEs.get ⟨i, hi2⟩) "dcmdat2niix" itt' md.rest)
      ∈ fin.outputs := by
  unfold runEchoLoop at hrun
  cases TEs with
  | nil => simp at hi2
  | cons t0 rest =>
    have henum : (t0 :: rest).enum = (0, t0) :: rest.enumFrom 1 := rfl
    rw [henum] at hrun
    unfold runEchoLoopAux at hrun
    dsimp only [echoStep] at hrun
    obtain ⟨hfn, hfp, hmem⟩ :=
      runEchoLoopAux_later_spec P md (rest.enumFrom 1)
        (echoZeroStep P (initState nifti P.suffix md)) fin hrun
        (fun q hq => enumFrom_fst_le rest 1 q hq)
    cases i with
    | zero => omega
    | succ k =>
      have hk : k < rest.length := by simpa using hi2
      have hmem1 : (1 + k, rest.get ⟨k, hk⟩) ∈ rest.enumFrom 1 :=
        mem_enumFrom_of_get rest 1 k hk
      rw [Nat.add_comm 1 k] at hmem1
      obtain ⟨itt', hm⟩ := hmem (k + 1) (rest.get ⟨k, hk⟩) hmem1
      refine ⟨itt', ?_⟩
      rw [hfn, hfp]
      exact hm

/-- The final loop state of the concrete two-echo run used as witness. -/
def finExample : LoopState String String Nat :=
  { nifti := "sub_e1", echoPrefix := "e", imgPath := "sub_e1.nii",
    jsonPath := "sub_e1.json", sharedITT := some ["ORIG", "TE2"],
    moves := [], phRewrite := none,
    outputs := [(1, "sub_e2", ⟨1, "affine0", "header0"⟩,
      Metadata.mk 3 "dcmdat2niix" (some ["ORIG", "TE2"])
        [("Modality", "MR")])] }

/-- Witness for `later_echo_materialization`: the concrete run on base
`"sub_e1"` with extracted echo times `[1, 3]`. -/
theorem later_echo_materialization_witness :
    ∃ itt',
      (1, pyReplace finExample.nifti (finExample.echoPrefix ++ "1")
          (finExample.echoPrefix ++ toString 2),
        (⟨exampleParams.slice 1, exampleParams.affine, exampleParams.header⟩
          : NiftiOut String String Nat),
        Metadata.mk (([1, 3] : List ℚ).get ⟨1, by norm_num⟩) "dcmdat2niix"
          itt' exampleMeta.rest)
      ∈ finExample.outputs :=
  later_echo_materialization exampleParams exampleMeta "sub_e1" [1, 3]
    finExample (by rfl) 1 (by norm_num) (by norm_num)

end Dcmdat2niix
